import Mathlib

/-!
Verification of the settings registry, optimization policy and persistence
codec of RodeysTweaksGamingOptimizer against its specification.

The embedding follows `src/RodeysTweaksGamingOptimizer.cpp`:
`GameOptimizer` holds a linear `std::vector<Setting>`; `optimizeSettings` and
`updateSetting` both clamp with `std::min(maxValue, std::max(minValue, x))`;
`SettingsManager::saveSettings` writes a `Game Settings:` header followed by
`name=value` lines; `SettingsManager::loadSettings` splits each line at the
first `=` and parses the remainder with `operator>>` into an `int`.
C++ `int` arithmetic is modelled by `Int` (no claim here exercises overflow),
and C++ `/` on `int` truncates toward zero, which is `Int.tdiv`.
-/

/-- The `Setting` record nested in `GameOptimizer`: a named integer value
with fixed bounds. -/
structure Setting where
  name : String
  value : Int
  minValue : Int
  maxValue : Int
deriving DecidableEq

/-- The registry owned by `GameOptimizer`: a linear list in insertion order,
mirroring `std::vector<Setting> settings`. -/
abbrev Registry := List Setting

/-- The clamp expression appearing verbatim at both mutation sites of the
source: `std::min(maxValue, std::max(minValue, x))`. -/
def clampCode (minValue maxValue x : Int) : Int :=
  min maxValue (max minValue x)

/-- `GameOptimizer::addSetting`: appends a new setting, storing the default
value unclamped (`settings.emplace_back(name, defaultValue, minValue, maxValue)`). -/
def addSetting (r : Registry) (name : String) (defaultValue minValue maxValue : Int) : Registry :=
  r ++ [⟨name, defaultValue, minValue, maxValue⟩]

/-- `GameOptimizer::optimizeSettings`: overwrites every setting's value with
the clamped `targetPerformance / 10` (truncating division). -/
def optimizeSettings (r : Registry) (targetPerformance : Int) : Registry :=
  r.map fun s => { s with value := clampCode s.minValue s.maxValue (Int.tdiv targetPerformance 10) }

/-- `GameOptimizer::updateSetting`: the loop over `settings` has no `break`,
so every setting whose name matches is overwritten with the clamped value. -/
def updateSetting (r : Registry) (name : String) (value : Int) : Registry :=
  r.map fun s =>
    if s.name = name then { s with value := clampCode s.minValue s.maxValue value } else s

/-- The spec's `OptimizationPolicy.derive`, computed exactly as the body of
the optimize loop computes a single setting's new value. -/
def derive (targetPerformance minValue maxValue : Int) : Int :=
  clampCode minValue maxValue (Int.tdiv targetPerformance 10)

/-- Modelled from the spec's glossary: clamp constrains a value to the closed
interval `[lo, hi]`. -/
def clampSpec (x lo hi : Int) : Int :=
  if x < lo then lo else if hi < x then hi else x

/-- A setting's value lies within its bounds. -/
abbrev InBounds (s : Setting) : Prop :=
  s.minValue ≤ s.value ∧ s.value ≤ s.maxValue

/-- Every setting of the registry lies within its bounds. -/
abbrev RegistryInBounds (r : Registry) : Prop :=
  ∀ s ∈ r, InBounds s

/-- One external call into the registry, from the spec's operation set
`add` / `optimizeAll` / `update`. -/
inductive Op where
  | add (name : String) (defaultValue minValue maxValue : Int)
  | optimizeAll (targetPerformance : Int)
  | update (name : String) (value : Int)

/-- Dispatch one operation to the corresponding `GameOptimizer` method. -/
def applyOp (r : Registry) : Op → Registry
  | Op.add n d lo hi => addSetting r n d lo hi
  | Op.optimizeAll t => optimizeSettings r t
  | Op.update n v => updateSetting r n v

/-- Run a sequence of calls against the registry. -/
def run (r : Registry) : List Op → Registry
  | [] => r
  | op :: ops => run (applyOp r op) ops

/-- An `add` call whose default value lies within its bounds; other calls are
unconstrained. -/
def addOk : Op → Bool
  | Op.add _ d lo hi => decide (lo ≤ d) && decide (d ≤ hi)
  | _ => true

/-- The creation-time fields of a setting: name and both bounds. -/
def frameOf (s : Setting) : String × Int × Int :=
  (s.name, s.minValue, s.maxValue)

/-- Whitespace characters skipped by `operator>>` in the default C locale. -/
def isWsChar (c : Char) : Bool :=
  c == ' ' || c == '\t' || c == '\n' || c == '\x0b' || c == '\x0c' || c == '\r'

/-- Drop the leading whitespace of a stream, as `operator>>` does before
reading a number. -/
def skipWs : List Char → List Char
  | [] => []
  | c :: cs => if isWsChar c then skipWs cs else c :: cs

/-- Numeric value of a decimal digit character. -/
def charVal (c : Char) : Nat :=
  c.toNat - 48

/-- Value of a decimal digit string read left to right. -/
def digitsToNat (ds : List Char) : Nat :=
  ds.foldl (fun a c => 10 * a + charVal c) 0

/-- Read the non-empty run of leading decimal digits and ignore what follows,
as `operator>>` does after the optional sign; fail when no digit is present. -/
def parseNat (cs : List Char) : Option Nat :=
  let ds := cs.takeWhile Char.isDigit
  if ds = [] then none else some (digitsToNat ds)

/-- `ss >> value` for `int`: skip whitespace, then an optional sign followed
by a non-empty digit run; trailing characters are left unread. -/
def parseIntChars (cs : List Char) : Option Int :=
  match skipWs cs with
  | [] => none
  | c :: rest =>
    if c = '-' then (parseNat rest).map fun m => -(m : Int)
    else if c = '+' then (parseNat rest).map fun m => (m : Int)
    else (parseNat (c :: rest)).map fun m => (m : Int)

/-- Decimal digits of `n`, most significant first; the explicit fuel keeps
the recursion structural. -/
def natCharsAux : Nat → Nat → List Char
  | 0, _ => []
  | fuel + 1, n => if n = 0 then [] else natCharsAux fuel (n / 10) ++ [Nat.digitChar (n % 10)]

/-- Decimal rendering of a natural number, as `operator<<` prints it. -/
def natChars (n : Nat) : List Char :=
  if n = 0 then ['0'] else natCharsAux n n

/-- Decimal rendering of an `int`, as `file << setting.value` prints it. -/
def intChars (v : Int) : List Char :=
  if v < 0 then '-' :: natChars v.natAbs else natChars v.natAbs

/-- `std::getline(ss, name, '=')` on one line: the characters before the
first `=`, and the characters after it when one exists. -/
def splitAtEq : List Char → List Char × Option (List Char)
  | [] => ([], none)
  | c :: cs =>
    if c = '=' then ([], some cs)
    else
      let p := splitAtEq cs
      (c :: p.1, p.2)

/-- One line of the load loop: a `(name, value)` pair when the line contains
an `=` and the text after the first `=` parses as an int, otherwise nothing.
A line with no `=` leaves the stream at eof, so the subsequent `ss >> value`
always fails, and an empty line makes `getline` itself fail: both are the
`none` case here. -/
def parseLine (line : List Char) : Option (String × Int) :=
  match splitAtEq line with
  | (_, none) => none
  | (nameChars, some rest) =>
    match parseIntChars rest with
    | none => none
    | some v => some (String.mk nameChars, v)

/-- Feed one line into `updateSetting`, silently skipping malformed lines. -/
def loadLine (r : Registry) (line : List Char) : Registry :=
  match parseLine line with
  | none => r
  | some (n, v) => updateSetting r n v

/-- The segments produced by repeated `std::getline` at the given separator.
A trailing separator yields a final empty segment that the load loop would
not see, but an empty line is skipped by `parseLine` anyway. -/
def splitOnChar (sep : Char) : List Char → List (List Char)
  | [] => [[]]
  | c :: cs =>
    if c = sep then [] :: splitOnChar sep cs
    else
      match splitOnChar sep cs with
      | [] => [[c]]
      | l :: ls => (c :: l) :: ls

/-- The line written per setting by `saveSettings`: `name=value`. -/
def settingLineChars (s : Setting) : List Char :=
  s.name.toList ++ '=' :: intChars s.value

/-- `SettingsManager::saveSettings`: the `Game Settings:` header line followed
by one `name=value` line per setting, each newline-terminated. -/
def saveSettings (r : Registry) : String :=
  String.mk ("Game Settings:".toList ++ '\n' :: (r.map fun s => settingLineChars s ++ ['\n']).flatten)

/-- `SettingsManager::loadSettings`: read lines with `getline` and feed each
through the parse-then-update loop. -/
def loadSettings (r : Registry) (content : String) : Registry :=
  (splitOnChar '\n' content.toList).foldl loadLine r

/-- A registry pre-populated with the same setting definitions: same names
and bounds position by position, with arbitrary values. -/
def sameDefs : Registry → Registry → Bool
  | [], [] => true
  | s :: r, f :: fr =>
    decide (f.name = s.name) && decide (f.minValue = s.minValue) &&
      decide (f.maxValue = s.maxValue) && sameDefs r fr
  | _, _ => false

/-- A setting name the flat key=value format can carry: no `=` and no
newline. -/
abbrev NameOk (s : Setting) : Prop :=
  '=' ∉ s.name.toList ∧ '\n' ∉ s.name.toList

lemma clampCode_mem (lo hi x : Int) (h : lo ≤ hi) :
    lo ≤ clampCode lo hi x ∧ clampCode lo hi x ≤ hi := by
  unfold clampCode
  constructor
  · exact le_min h (le_max_left lo x)
  · exact min_le_left hi _

lemma clampCode_fix (lo hi v : Int) (h1 : lo ≤ v) (h2 : v ≤ hi) :
    clampCode lo hi v = v := by
  unfold clampCode
  rw [max_eq_right h1, min_eq_right h2]

lemma clampCode_eq_spec (lo hi x : Int) (h : lo ≤ hi) :
    clampCode lo hi x = clampSpec x lo hi := by
  unfold clampCode clampSpec
  rcases lt_or_le x lo with hx | hx
  · rw [if_pos hx, max_eq_left hx.le, min_eq_right h]
  · rw [if_neg (not_lt.mpr hx), max_eq_right hx]
    rcases lt_or_le hi x with hy | hy
    · rw [if_pos hy, min_eq_left hy.le]
    · rw [if_neg (not_lt.mpr hy), min_eq_right hy]

lemma clampCode_inverted (lo hi x : Int) (h : hi < lo) :
    clampCode lo hi x = hi := by
  unfold clampCode
  exact min_eq_left (h.le.trans (le_max_left lo x))

lemma updateSetting_eq_of_no_match (r : Registry) (n : String) (v : Int)
    (h : ∀ s ∈ r, s.name ≠ n) : updateSetting r n v = r := by
  induction r with
  | nil => rfl
  | cons s l ih =>
    have hs : s.name ≠ n := h s (List.mem_cons_self s l)
    have hl : updateSetting l n v = l := ih fun t ht => h t (List.mem_cons_of_mem s ht)
    simp only [updateSetting, List.map_cons, if_neg hs] at *
    rw [hl]

lemma applyOp_preserves (r : Registry) (op : Op)
    (hr : RegistryInBounds r) (hop : addOk op = true) :
    RegistryInBounds (applyOp r op) := by
  cases op with
  | add n d lo hi =>
    simp only [addOk, Bool.and_eq_true, decide_eq_true_eq] at hop
    intro s hs
    rcases List.mem_append.mp hs with hs | hs
    · exact hr s hs
    · rcases List.mem_singleton.mp hs with rfl
      exact ⟨hop.1, hop.2⟩
  | optimizeAll t =>
    intro s hs
    rcases List.mem_map.mp hs with ⟨u, hu, rfl⟩
    have hb := hr u hu
    exact clampCode_mem u.minValue u.maxValue _ (hb.1.trans hb.2)
  | update n v =>
    intro s hs
    rcases List.mem_map.mp hs with ⟨u, hu, rfl⟩
    have hb := hr u hu
    by_cases hn : u.name = n
    · rw [if_pos hn]
      exact clampCode_mem u.minValue u.maxValue v (hb.1.trans hb.2)
    · rw [if_neg hn]
      exact hb

/-- C1 counterexample: an `add` whose default value 10 lies outside the bounds
`[1, 5]` leaves a setting whose value is out of bounds, because
`addSetting` stores the default unclamped. -/
theorem addSetting_escapes_bounds :
    ¬ RegistryInBounds (run [] [Op.add "X" 10 1 5]) := by
  decide

/-- C1 (amended): for every sequence of `add`, `optimizeAll`, `update` calls
in which every `add` supplies a default value within its bounds, every setting
of the registry lies within `[minValue, maxValue]` after each call returns
(stated from an arbitrary in-bounds registry so that it covers every
intermediate state of the sequence). -/
theorem bounds_invariant_holds (r : Registry) (ops : List Op)
    (hr : RegistryInBounds r) (hops : ∀ op ∈ ops, addOk op = true) :
    RegistryInBounds (run r ops) := by
  induction ops generalizing r with
  | nil => exact hr
  | cons op ops ih =>
    have h1 := applyOp_preserves r op hr (hops op (List.mem_cons_self op ops))
    exact ih (applyOp r op) h1 fun o ho => hops o (List.mem_cons_of_mem op ho)

/-- C1 witness: a concrete in-bounds sequence keeps the registry in bounds. -/
theorem bounds_invariant_holds_witness :
    RegistryInBounds (run [] [Op.add "Shadow" 2 1 4, Op.optimizeAll 70, Op.update "Shadow" 99]) :=
  bounds_invariant_holds [] [Op.add "Shadow" 2 1 4, Op.optimizeAll 70, Op.update "Shadow" 99]
    (by decide) (by decide)

/-- C2: `optimizeSettings` sets every setting with `minValue ≤ maxValue` to
`clamp(targetPerformance / 10)` with truncating division, and the spec's three
sample values of `derive` hold. -/
theorem optimize_derives_clamp :
    (∀ (r : Registry) (t : Int) (i : Nat) (s : Setting), r[i]? = some s →
        s.minValue ≤ s.maxValue →
        ((optimizeSettings r t)[i]?).map Setting.value =
          some (clampSpec (Int.tdiv t 10) s.minValue s.maxValue))
    ∧ derive 1000 1 5 = 5 ∧ derive (-50) 1 5 = 1 ∧ derive 35 1 5 = 3 := by
  refine ⟨?_, by decide, by decide, by decide⟩
  intro r t i s h hb
  simp only [optimizeSettings, List.getElem?_map, h, Option.map_some', Option.some.injEq]
  exact clampCode_eq_spec s.minValue s.maxValue _ hb

/-- C2 witness: the optimize loop at the spec's example `t = 35` on a concrete
registry produces the clamped value. -/
theorem optimize_derives_clamp_witness :
    ((optimizeSettings [⟨"TextureQuality", 2, 1, 5⟩] 35)[0]?).map Setting.value =
      some (clampSpec (Int.tdiv 35 10) 1 5) :=
  optimize_derives_clamp.1 [⟨"TextureQuality", 2, 1, 5⟩] 35 0 ⟨"TextureQuality", 2, 1, 5⟩
    (by decide) (by decide)

/-- C4 counterexample: with two settings both named `A` at value 0 in bounds
`[0, 10]`, `updateSetting` with value 5 does not leave the later duplicate at
its prior value 0 — the loop has no `break`, so both are overwritten. -/
theorem update_mutates_later_duplicate :
    (updateSetting [⟨"A", 0, 0, 10⟩, ⟨"A", 0, 0, 10⟩] "A" 5).map Setting.value ≠ [5, 0] := by
  decide

/-- C4 (amended): `updateSetting` mutates every setting whose name matches,
clamping the raw value into each matching setting's own bounds, and leaves
settings with other names unchanged. -/
theorem update_mutates_all_matches (r : Registry) (n : String) (v : Int) (i : Nat)
    (s : Setting) (h : r[i]? = some s) :
    (updateSetting r n v)[i]? =
      some (if s.name = n then { s with value := clampCode s.minValue s.maxValue v } else s) := by
  simp only [updateSetting, List.getElem?_map, h, Option.map_some']

/-- C4 witness: the amended statement evaluated on a two-element registry with
a duplicated name, at the later duplicate's index. -/
theorem update_mutates_all_matches_witness :
    (updateSetting [⟨"A", 0, 0, 10⟩, ⟨"A", 0, 0, 10⟩] "A" 5)[1]? =
      some (if (Setting.mk "A" 0 0 10).name = "A"
            then { Setting.mk "A" 0 0 10 with value := clampCode 0 10 5 }
            else Setting.mk "A" 0 0 10) :=
  update_mutates_all_matches [⟨"A", 0, 0, 10⟩, ⟨"A", 0, 0, 10⟩] "A" 5 1 ⟨"A", 0, 0, 10⟩
    (by decide)

/-- C6: updating a name that matches no setting leaves the registry unchanged
and raises no error. -/
theorem unknown_name_update_noop (r : Registry) (n : String) (v : Int)
    (h : ∀ s ∈ r, s.name ≠ n) : updateSetting r n v = r :=
  updateSetting_eq_of_no_match r n v h

/-- C6 witness: updating `DoesNotExist` on a concrete registry is a no-op. -/
theorem unknown_name_update_noop_witness :
    updateSetting [⟨"Resolution", 1080, 720, 2160⟩] "DoesNotExist" 99 =
      [⟨"Resolution", 1080, 720, 2160⟩] :=
  unknown_name_update_noop [⟨"Resolution", 1080, 720, 2160⟩] "DoesNotExist" 99 (by decide)

/-- C7: `optimizeSettings` is idempotent for a fixed target: applying it twice
equals applying it once. -/
theorem optimize_idempotent (r : Registry) (t : Int) :
    optimizeSettings (optimizeSettings r t) t = optimizeSettings r t := by
  induction r with
  | nil => rfl
  | cons s l ih =>
    simp only [optimizeSettings, List.map_cons] at *
    rw [List.map_map] at ih ⊢
    rw [ih]

/-- C8: `optimizeSettings` and `updateSetting` change only values — the
names, bounds, count and order of settings are preserved. -/
theorem mutations_preserve_frame (r : Registry) (t : Int) (n : String) (v : Int) :
    (optimizeSettings r t).map frameOf = r.map frameOf ∧
    (updateSetting r n v).map frameOf = r.map frameOf := by
  constructor
  · induction r with
    | nil => rfl
    | cons s l ih =>
      simp only [optimizeSettings, List.map_cons, List.map_map] at *
      rw [ih]
      rfl
  · induction r with
    | nil => rfl
    | cons s l ih =>
      simp only [updateSetting, List.map_cons, List.map_map] at *
      rw [ih]
      by_cases hn : s.name = n
      · rw [if_pos hn]
        rfl
      · rw [if_neg hn]

/-- C9: on a setting with inverted bounds (`maxValue < minValue`), both
mutation paths produce exactly `maxValue`, because the clamp is
`min(maxValue, max(minValue, x))` in that fixed order. -/
theorem inverted_bounds_give_max (r : Registry) (t v : Int) (n : String) (i : Nat)
    (s : Setting) (h : r[i]? = some s) (hinv : s.maxValue < s.minValue) :
    ((optimizeSettings r t)[i]?).map Setting.value = some s.maxValue ∧
    (s.name = n → ((updateSetting r n v)[i]?).map Setting.value = some s.maxValue) := by
  constructor
  · simp only [optimizeSettings, List.getElem?_map, h, Option.map_some', Option.some.injEq]
    exact clampCode_inverted s.minValue s.maxValue _ hinv
  · intro hn
    simp only [updateSetting, List.getElem?_map, h, Option.map_some', if_pos hn,
      Option.some.injEq]
    exact clampCode_inverted s.minValue s.maxValue v hinv

/-- C9 witness: a concrete setting with bounds `[5, 1]` is set to 1 by both
paths, for any inputs. -/
theorem inverted_bounds_give_max_witness :
    ((optimizeSettings [⟨"B", 0, 5, 1⟩] 1000)[0]?).map Setting.value = some 1 ∧
    ((Setting.mk "B" 0 5 1).name = "B" →
      ((updateSetting [⟨"B", 0, 5, 1⟩] "B" 7)[0]?).map Setting.value = some 1) :=
  inverted_bounds_give_max [⟨"B", 0, 5, 1⟩] 1000 7 "B" 0 ⟨"B", 0, 5, 1⟩ (by decide) (by decide)

lemma digitChar_facts : ∀ d, d < 10 →
    (Nat.digitChar d).isDigit = true ∧ isWsChar (Nat.digitChar d) = false ∧
    Nat.digitChar d ≠ '-' ∧ Nat.digitChar d ≠ '+' ∧ Nat.digitChar d ≠ '=' ∧
    Nat.digitChar d ≠ '\n' ∧ charVal (Nat.digitChar d) = d := by
  decide

lemma natCharsAux_good (fuel : Nat) : ∀ n, ∀ c ∈ natCharsAux fuel n,
    ∃ d, d < 10 ∧ c = Nat.digitChar d := by
  induction fuel with
  | zero => intro n c hc; simp [natCharsAux] at hc
  | succ fuel ih =>
    intro n c hc
    by_cases hn : n = 0
    · simp [natCharsAux, hn] at hc
    · simp only [natCharsAux, if_neg hn, List.mem_append, List.mem_singleton] at hc
      rcases hc with hc | rfl
      · exact ih (n / 10) c hc
      · exact ⟨n % 10, Nat.mod_lt n (by norm_num), rfl⟩

lemma natChars_good (n : Nat) : ∀ c ∈ natChars n, ∃ d, d < 10 ∧ c = Nat.digitChar d := by
  intro c hc
  by_cases hn : n = 0
  · simp only [natChars, if_pos hn, List.mem_singleton] at hc
    exact ⟨0, by norm_num, hc⟩
  · simp only [natChars, if_neg hn] at hc
    exact natCharsAux_good n n c hc

lemma natChars_ne_nil (n : Nat) : natChars n ≠ [] := by
  by_cases hn : n = 0
  · simp [natChars, hn]
  · simp only [natChars, if_neg hn]
    obtain ⟨m, rfl⟩ := Nat.exists_eq_succ_of_ne_zero hn
    simp [natCharsAux]

lemma digitsToNat_append_digit (l : List Char) (c : Char) :
    digitsToNat (l ++ [c]) = 10 * digitsToNat l + charVal c := by
  simp [digitsToNat, List.foldl_append]

lemma natCharsAux_inv (fuel : Nat) : ∀ n, n ≤ fuel → digitsToNat (natCharsAux fuel n) = n := by
  induction fuel with
  | zero =>
    intro n hn
    interval_cases n
    rfl
  | succ fuel ih =>
    intro n hn
    by_cases h0 : n = 0
    · simp [natCharsAux, h0, digitsToNat]
    · have hdiv : n / 10 ≤ fuel := by
        have := Nat.div_lt_self (Nat.pos_of_ne_zero h0) (by norm_num : 1 < 10)
        omega
      simp only [natCharsAux, if_neg h0, digitsToNat_append_digit, ih (n / 10) hdiv,
        (digitChar_facts (n % 10) (Nat.mod_lt n (by norm_num))).2.2.2.2.2.2]
      omega

lemma digitsToNat_natChars (n : Nat) : digitsToNat (natChars n) = n := by
  by_cases hn : n = 0
  · subst hn; rfl
  · simp only [natChars, if_neg hn]
    exact natCharsAux_inv n n le_rfl

lemma takeWhile_of_all (l : List Char) (h : ∀ c ∈ l, Char.isDigit c = true) :
    l.takeWhile Char.isDigit = l := by
  induction l with
  | nil => rfl
  | cons c cs ih =>
    rw [List.takeWhile_cons, if_pos (h c (List.mem_cons_self c cs))]
    rw [ih fun x hx => h x (List.mem_cons_of_mem c hx)]

lemma parseNat_natChars (n : Nat) : parseNat (natChars n) = some n := by
  have hall : ∀ c ∈ natChars n, Char.isDigit c = true := by
    intro c hc
    obtain ⟨d, hd, rfl⟩ := natChars_good n c hc
    exact (digitChar_facts d hd).1
  simp only [parseNat, takeWhile_of_all (natChars n) hall, if_neg (natChars_ne_nil n)]
  rw [digitsToNat_natChars]

lemma parseIntChars_intChars (v : Int) : parseIntChars (intChars v) = some v := by
  by_cases hv : v < 0
  · rw [show intChars v = '-' :: natChars v.natAbs from if_pos hv]
    have h2 : skipWs ('-' :: natChars v.natAbs) = '-' :: natChars v.natAbs := rfl
    have h3 : (v.natAbs : Int) = -v := by omega
    simp [parseIntChars, h2, parseNat_natChars, h3]
  · rw [show intChars v = natChars v.natAbs from if_neg hv]
    rcases hcr : natChars v.natAbs with _ | ⟨c, rest⟩
    · exact absurd hcr (natChars_ne_nil _)
    · obtain ⟨d, hd, hcd⟩ :=
        natChars_good v.natAbs c (by rw [hcr]; exact List.mem_cons_self c rest)
      have hfacts := digitChar_facts d hd
      subst hcd
      have hws : skipWs (Nat.digitChar d :: rest) = Nat.digitChar d :: rest := by
        simp [skipWs, hfacts.2.1]
      simp only [parseIntChars, hws]
      rw [if_neg hfacts.2.2.1, if_neg hfacts.2.2.2.1, ← hcr, parseNat_natChars]
      simp [Int.natAbs_of_nonneg (not_lt.mp hv)]

lemma splitAtEq_append (a b : List Char) (h : '=' ∉ a) :
    splitAtEq (a ++ '=' :: b) = (a, some b) := by
  induction a with
  | nil => simp [splitAtEq]
  | cons c a ih =>
    simp only [List.mem_cons, not_or] at h
    have hc : c ≠ '=' := fun he => h.1 he.symm
    simp only [List.cons_append, splitAtEq, if_neg hc]
    rw [List.append_eq, ih h.2]

lemma intChars_good (v : Int) :
    ∀ c ∈ intChars v, c = '-' ∨ ∃ d, d < 10 ∧ c = Nat.digitChar d := by
  intro c hc
  by_cases hv : v < 0
  · simp only [intChars, if_pos hv, List.mem_cons] at hc
    rcases hc with rfl | hc
    · exact Or.inl rfl
    · exact Or.inr (natChars_good _ c hc)
  · simp only [intChars, if_neg hv] at hc
    exact Or.inr (natChars_good _ c hc)

lemma intChars_no_nl (v : Int) : ∀ c ∈ intChars v, c ≠ '\n' := by
  intro c hc
  rcases intChars_good v c hc with rfl | ⟨d, hd, rfl⟩
  · decide
  · exact (digitChar_facts d hd).2.2.2.2.2.1

lemma settingLineChars_no_nl (s : Setting) (h : NameOk s) :
    ∀ c ∈ settingLineChars s, c ≠ '\n' := by
  intro c hc
  simp only [settingLineChars, List.mem_append, List.mem_cons] at hc
  rcases hc with hc | hc | hc
  · exact fun he => h.2 (he ▸ hc)
  · subst hc; decide
  · exact intChars_no_nl s.value c hc

lemma parseLine_settingLine (s : Setting) (h : '=' ∉ s.name.toList) :
    parseLine (settingLineChars s) = some (s.name, s.value) := by
  simp only [parseLine, settingLineChars, splitAtEq_append _ _ h, parseIntChars_intChars]
  rfl

lemma splitOnChar_line (a b : List Char) (h : ∀ c ∈ a, c ≠ '\n') :
    splitOnChar '\n' (a ++ '\n' :: b) = a :: splitOnChar '\n' b := by
  induction a with
  | nil => simp [splitOnChar]
  | cons c a ih =>
    have hc : c ≠ '\n' := h c (List.mem_cons_self c a)
    have ha : ∀ x ∈ a, x ≠ '\n' := fun x hx => h x (List.mem_cons_of_mem c hx)
    simp only [List.cons_append, splitOnChar, if_neg hc]
    rw [List.append_eq, ih ha]

lemma splitOnChar_saved (r : Registry) (h : ∀ s ∈ r, NameOk s) :
    splitOnChar '\n' ((r.map fun s => settingLineChars s ++ ['\n']).flatten) =
      r.map settingLineChars ++ [[]] := by
  induction r with
  | nil => simp [splitOnChar]
  | cons s r ih =>
    have hs := h s (List.mem_cons_self s r)
    have hr : ∀ t ∈ r, NameOk t := fun t ht => h t (List.mem_cons_of_mem s ht)
    simp only [List.map_cons, List.flatten_cons, List.append_assoc, List.singleton_append]
    rw [splitOnChar_line _ _ (settingLineChars_no_nl s hs), ih hr]
    rfl

lemma loadSettings_saved (r fresh : Registry) (h : ∀ s ∈ r, NameOk s) :
    loadSettings fresh (saveSettings r) = (r.map settingLineChars).foldl loadLine fresh := by
  have hhead : ∀ c ∈ "Game Settings:".toList, c ≠ '\n' := by decide
  simp only [loadSettings, saveSettings]
  rw [show (String.mk ("Game Settings:".toList ++
      '\n' :: (r.map fun s => settingLineChars s ++ ['\n']).flatten)).toList =
      "Game Settings:".toList ++
        '\n' :: (r.map fun s => settingLineChars s ++ ['\n']).flatten from rfl]
  rw [splitOnChar_line _ _ hhead, splitOnChar_saved r h, List.foldl_cons]
  rw [show loadLine fresh ("Game Settings:".toList) = fresh from rfl]
  rw [List.foldl_append]
  rfl

lemma updateSetting_cons_ne (x : Setting) (l : Registry) (n : String) (v : Int)
    (hx : x.name ≠ n) : updateSetting (x :: l) n v = x :: updateSetting l n v := by
  simp [updateSetting, hx]

lemma loadLine_settingLine (r : Registry) (t : Setting) (h : '=' ∉ t.name.toList) :
    loadLine r (settingLineChars t) = updateSetting r t.name t.value := by
  simp [loadLine, parseLine_settingLine t h]

lemma foldl_loadLine_cons (x : Setting) :
    ∀ (ts : Registry) (l : Registry), (∀ t ∈ ts, t.name ≠ x.name) →
      (∀ t ∈ ts, '=' ∉ t.name.toList) →
      (ts.map settingLineChars).foldl loadLine (x :: l) =
        x :: (ts.map settingLineChars).foldl loadLine l := by
  intro ts
  induction ts with
  | nil => intro l _ _; rfl
  | cons t ts ih =>
    intro l hne heq
    have h1 := hne t (List.mem_cons_self t ts)
    have h2 := heq t (List.mem_cons_self t ts)
    simp only [List.map_cons, List.foldl_cons]
    rw [loadLine_settingLine _ t h2, loadLine_settingLine _ t h2,
      updateSetting_cons_ne x _ t.name t.value (Ne.symm h1)]
    exact ih _ (fun u hu => hne u (List.mem_cons_of_mem t hu))
      (fun u hu => heq u (List.mem_cons_of_mem t hu))

lemma sameDefs_names : ∀ (r fr : Registry), sameDefs r fr = true →
    fr.map Setting.name = r.map Setting.name := by
  intro r
  induction r with
  | nil =>
    intro fr h
    cases fr with
    | nil => rfl
    | cons f fr => simp [sameDefs] at h
  | cons s r ih =>
    intro fr h
    cases fr with
    | nil => simp [sameDefs] at h
    | cons f fr =>
      simp only [sameDefs, Bool.and_eq_true, decide_eq_true_eq] at h
      simp only [List.map_cons, ih fr h.2, h.1.1.1]

lemma foldl_loadLine_restore : ∀ (r fresh : Registry), sameDefs r fresh = true →
    (r.map Setting.name).Nodup → (∀ s ∈ r, NameOk s) → (∀ s ∈ r, InBounds s) →
    (r.map settingLineChars).foldl loadLine fresh = r := by
  intro r
  induction r with
  | nil =>
    intro fresh h _ _ _
    cases fresh with
    | nil => rfl
    | cons f fr => simp [sameDefs] at h
  | cons s r ih =>
    intro fresh hdefs hnodup hname hb
    cases fresh with
    | nil => simp [sameDefs] at hdefs
    | cons f fr =>
      simp only [sameDefs, Bool.and_eq_true, decide_eq_true_eq] at hdefs
      obtain ⟨⟨⟨hfn, hfmin⟩, hfmax⟩, htail⟩ := hdefs
      have hs_eq : '=' ∉ s.name.toList := (hname s (List.mem_cons_self s r)).1
      have hsb := hb s (List.mem_cons_self s r)
      simp only [List.map_cons, List.nodup_cons] at hnodup
      have hrne : ∀ t ∈ r, t.name ≠ s.name := by
        intro t ht he
        exact hnodup.1 (he ▸ List.mem_map_of_mem Setting.name ht)
      have hfrne : ∀ t ∈ fr, t.name ≠ s.name := by
        intro t ht he
        have hm : t.name ∈ fr.map Setting.name := List.mem_map_of_mem Setting.name ht
        rw [sameDefs_names r fr htail] at hm
        exact hnodup.1 (he ▸ hm)
      have hupd : updateSetting (f :: fr) s.name s.value = s :: fr := by
        have htail2 : updateSetting fr s.name s.value = fr :=
          updateSetting_eq_of_no_match fr s.name s.value hfrne
        have hhead : (if f.name = s.name
            then { f with value := clampCode f.minValue f.maxValue s.value } else f) = s := by
          rw [if_pos hfn, hfmin, hfmax,
            clampCode_fix s.minValue s.maxValue s.value hsb.1 hsb.2, hfn]
        calc updateSetting (f :: fr) s.name s.value
            = (if f.name = s.name
                then { f with value := clampCode f.minValue f.maxValue s.value } else f)
                :: updateSetting fr s.name s.value := rfl
          _ = s :: fr := by rw [hhead, htail2]
      rw [List.map_cons, List.foldl_cons, loadLine_settingLine _ s hs_eq, hupd]
      rw [foldl_loadLine_cons s r fr hrne
        (fun t ht => (hname t (List.mem_cons_of_mem s ht)).1)]
      rw [ih fr htail hnodup.2 (fun t ht => hname t (List.mem_cons_of_mem s ht))
        (fun t ht => hb t (List.mem_cons_of_mem s ht))]

lemma skipWs_append (w rest : List Char) (h : ∀ c ∈ w, isWsChar c = true) :
    skipWs (w ++ rest) = skipWs rest := by
  induction w with
  | nil => rfl
  | cons c w ih =>
    simp only [List.cons_append, skipWs, if_pos (h c (List.mem_cons_self c w))]
    exact ih fun x hx => h x (List.mem_cons_of_mem c hx)

/-- C3 counterexample: a registry with two settings both named `A`, values 3
and 5 within bounds `[0, 10]`, loaded back into a registry with the very same
definitions, does not reproduce the values: the last `A=` line overwrites
every setting named `A`, giving `[5, 5]`. -/
theorem roundtrip_fails_on_duplicate_names :
    (loadSettings [⟨"A", 3, 0, 10⟩, ⟨"A", 5, 0, 10⟩]
        (saveSettings [⟨"A", 3, 0, 10⟩, ⟨"A", 5, 0, 10⟩])).map Setting.value ≠ [3, 5] := by
  decide

/-- C3 (amended): for a registry whose settings have pairwise distinct names
containing neither `=` nor a newline, and whose values are within bounds,
serializing and then deserializing into a registry pre-populated with the same
setting definitions reproduces every setting exactly. -/
theorem roundtrip_restores_values (r fresh : Registry) (hdefs : sameDefs r fresh = true)
    (hnodup : (r.map Setting.name).Nodup) (hname : ∀ s ∈ r, NameOk s)
    (hb : ∀ s ∈ r, InBounds s) :
    loadSettings fresh (saveSettings r) = r := by
  rw [loadSettings_saved r fresh hname]
  exact foldl_loadLine_restore r fresh hdefs hnodup hname hb

/-- C3 witness: the spec's example `Resolution[720,2160]=1440`,
`TextureQuality[1,5]=3` round-trips through a fresh registry holding the
default values. -/
theorem roundtrip_restores_values_witness :
    loadSettings [⟨"Resolution", 1080, 720, 2160⟩, ⟨"TextureQuality", 1, 1, 5⟩]
      (saveSettings [⟨"Resolution", 1440, 720, 2160⟩, ⟨"TextureQuality", 3, 1, 5⟩]) =
      [⟨"Resolution", 1440, 720, 2160⟩, ⟨"TextureQuality", 3, 1, 5⟩] :=
  roundtrip_restores_values
    [⟨"Resolution", 1440, 720, 2160⟩, ⟨"TextureQuality", 3, 1, 5⟩]
    [⟨"Resolution", 1080, 720, 2160⟩, ⟨"TextureQuality", 1, 1, 5⟩]
    (by decide) (by decide) (by decide) (by decide)

/-- C5: deserializing `Resolution=1440\ngarbageline\nTextureQuality=abc\n`
against any prior registry clamps every setting named `Resolution` to 1440,
leaves every other setting (in particular `TextureQuality`) unchanged, and
raises no error: the line without `=` and the line whose value fails integer
parsing are skipped silently. -/
theorem malformed_lines_skipped (r : Registry) :
    loadSettings r "Resolution=1440\ngarbageline\nTextureQuality=abc\n" =
      r.map fun s =>
        if s.name = "Resolution" then { s with value := clampCode s.minValue s.maxValue 1440 }
        else s := rfl

lemma isDigit_not_special (c : Char) (h : c.isDigit = true) :
    isWsChar c = false ∧ c ≠ '-' ∧ c ≠ '+' := by
  simp only [Char.isDigit, Bool.and_eq_true, decide_eq_true_eq] at h
  have h1 : c ≠ ' ' := by rintro rfl; exact absurd h.1 (by decide)
  have h2 : c ≠ '\t' := by rintro rfl; exact absurd h.1 (by decide)
  have h3 : c ≠ '\n' := by rintro rfl; exact absurd h.1 (by decide)
  have h4 : c ≠ '\x0b' := by rintro rfl; exact absurd h.1 (by decide)
  have h5 : c ≠ '\x0c' := by rintro rfl; exact absurd h.1 (by decide)
  have h6 : c ≠ '\r' := by rintro rfl; exact absurd h.1 (by decide)
  have h7 : c ≠ '-' := by rintro rfl; exact absurd h.1 (by decide)
  have h8 : c ≠ '+' := by rintro rfl; exact absurd h.1 (by decide)
  refine ⟨?_, h7, h8⟩
  simp [isWsChar, h1, h2, h3, h4, h5, h6]

lemma takeWhile_append_junk (ds junk : List Char) (hds : ∀ c ∈ ds, Char.isDigit c = true)
    (hj : ∀ c ∈ junk.take 1, Char.isDigit c = false) :
    (ds ++ junk).takeWhile Char.isDigit = ds := by
  induction ds with
  | nil =>
    cases junk with
    | nil => rfl
    | cons j js =>
      have := hj j (by simp)
      simp [List.takeWhile_cons, this]
  | cons d ds ih =>
    rw [List.cons_append, List.takeWhile_cons, if_pos (hds d (List.mem_cons_self d ds))]
    rw [ih fun c hc => hds c (List.mem_cons_of_mem d hc)]

lemma parseNat_digits_junk (ds junk : List Char) (hne : ds ≠ [])
    (hds : ∀ c ∈ ds, Char.isDigit c = true)
    (hj : ∀ c ∈ junk.take 1, Char.isDigit c = false) :
    parseNat (ds ++ junk) = some (digitsToNat ds) := by
  simp only [parseNat, takeWhile_append_junk ds junk hds hj, if_neg hne]

lemma parseIntChars_digits_junk (w ds junk : List Char) (hw : ∀ c ∈ w, isWsChar c = true)
    (hne : ds ≠ []) (hds : ∀ c ∈ ds, Char.isDigit c = true)
    (hj : ∀ c ∈ junk.take 1, Char.isDigit c = false) :
    parseIntChars (w ++ (ds ++ junk)) = some ((digitsToNat ds : Int)) := by
  rcases ds with _ | ⟨d, ds⟩
  · exact absurd rfl hne
  · have hd := hds d (List.mem_cons_self d ds)
    have hfacts := isDigit_not_special d hd
    have hsw : skipWs (w ++ ((d :: ds) ++ junk)) = d :: (ds ++ junk) := by
      rw [skipWs_append w _ hw]
      simp [skipWs, hfacts.1]
    simp only [parseIntChars, hsw]
    rw [if_neg hfacts.2.1, if_neg hfacts.2.2]
    rw [show d :: (ds ++ junk) = (d :: ds) ++ junk from rfl]
    rw [parseNat_digits_junk (d :: ds) junk hne hds hj]
    rfl

lemma parseIntChars_intChars_junk (v : Int) (w junk : List Char)
    (hw : ∀ c ∈ w, isWsChar c = true) (hj : ∀ c ∈ junk.take 1, Char.isDigit c = false) :
    parseIntChars (w ++ (intChars v ++ junk)) = some v := by
  have hnd : ∀ c ∈ natChars v.natAbs, Char.isDigit c = true := by
    intro c hc
    obtain ⟨d, hd, rfl⟩ := natChars_good v.natAbs c hc
    exact (digitChar_facts d hd).1
  by_cases hv : v < 0
  · have h3 : (v.natAbs : Int) = -v := by omega
    rw [show intChars v = '-' :: natChars v.natAbs from if_pos hv]
    have hsw : skipWs (w ++ '-' :: (natChars v.natAbs ++ junk))
        = '-' :: (natChars v.natAbs ++ junk) := by
      rw [skipWs_append w _ hw]
      rfl
    simp [parseIntChars, hsw,
      parseNat_digits_junk (natChars v.natAbs) junk (natChars_ne_nil _) hnd hj,
      digitsToNat_natChars, h3]
  · rw [show intChars v = natChars v.natAbs from if_neg hv]
    rw [parseIntChars_digits_junk w (natChars v.natAbs) junk hw (natChars_ne_nil _) hnd hj]
    rw [digitsToNat_natChars]
    have h4 : (v.natAbs : Int) = v := by omega
    rw [h4]

lemma parseLine_junk (nm : String) (v : Int) (w junk : List Char)
    (hnm : '=' ∉ nm.toList) (hw : ∀ c ∈ w, isWsChar c = true)
    (hj : ∀ c ∈ junk.take 1, Char.isDigit c = false) :
    parseLine (nm.toList ++ '=' :: (w ++ (intChars v ++ junk))) = some (nm, v) := by
  simp only [parseLine, splitAtEq_append _ _ hnm,
    parseIntChars_intChars_junk v w junk hw hj]
  rfl

/-- C10: a line is accepted whenever the text after the first `=` begins,
after optional whitespace, with a valid base-10 integer, no matter what
characters trail the integer on the same line: for every setting name free of
`=`, every integer, every whitespace prefix, and every trailing-junk string
not starting with a further digit, the line performs the update; likewise any
non-empty digit run (leading zeros included) parses to its decimal value with
such junk behind it; in particular `Resolution=1440abc` updates `Resolution`
to 1440 rather than being skipped as malformed. -/
theorem trailing_junk_accepted :
    (∀ (nm : String) (v : Int) (w junk : List Char) (r : Registry),
        '=' ∉ nm.toList → (∀ c ∈ w, isWsChar c = true) →
        (∀ c ∈ junk.take 1, Char.isDigit c = false) →
        loadLine r (nm.toList ++ '=' :: (w ++ (intChars v ++ junk))) = updateSetting r nm v) ∧
    (∀ (w ds junk : List Char), (∀ c ∈ w, isWsChar c = true) → ds ≠ [] →
        (∀ c ∈ ds, Char.isDigit c = true) → (∀ c ∈ junk.take 1, Char.isDigit c = false) →
        parseIntChars (w ++ (ds ++ junk)) = some ((digitsToNat ds : Int))) ∧
    (∀ r : Registry, loadSettings r "Resolution=1440abc" = updateSetting r "Resolution" 1440) := by
  refine ⟨?_, ?_, ?_⟩
  · intro nm v w junk r hnm hw hj
    unfold loadLine
    rw [parseLine_junk nm v w junk hnm hw hj]
  · intro w ds junk hw hne hds hj
    exact parseIntChars_digits_junk w ds junk hw hne hds hj
  · intro r
    rfl

/-- C10 witness: the example line `Resolution=1440abc`, decomposed as name,
`=`, empty whitespace, the integer 1440 and the junk `abc`, performs the
update on a concrete registry. -/
theorem trailing_junk_accepted_witness :
    loadLine [⟨"Resolution", 1080, 720, 2160⟩]
        ("Resolution".toList ++ '=' :: ([] ++ (intChars 1440 ++ ['a', 'b', 'c']))) =
      updateSetting [⟨"Resolution", 1080, 720, 2160⟩] "Resolution" 1440 :=
  trailing_junk_accepted.1 "Resolution" 1440 [] ['a', 'b', 'c']
    [⟨"Resolution", 1080, 720, 2160⟩] (by decide) (by decide) (by decide)
